import Mathlib

/-!
Verification of the clean-genes ORF trimmer.

Shallow embedding of `src/orf_trimmer.rs`, `src/math.rs` and
`src/fasta_manager.rs`.  Sequences are byte lists (`List Nat`); the
relevant byte codes are `A = 65`, `C = 67`, `G = 71`, `T = 84`, `U = 85`,
gap `- = 45`, defline marker `> = 62`, lowercase range `97..122`.

Rust `HashMap`s are modelled as insertion-ordered association lists; the
properties proved about them are iteration-order independent, matching the
documented non-determinism boundary of the original design.
-/

set_option maxRecDepth 4096

/-- Byte-level `u8::to_ascii_uppercase`. -/
def toUpper (b : Nat) : Nat := if 97 ≤ b ∧ b ≤ 122 then b - 32 else b

/-- `FastaEntry` from `fasta_manager.rs`: defline, byte sequence, ordinal. -/
structure FastaEntry where
  defline : List Nat
  sequence : List Nat
  entry_number : Nat
deriving DecidableEq, Inhabited

/-- `Fasta` from `fasta_manager.rs`: filename plus ordered entries. -/
structure Fasta where
  filename : String
  data : List FastaEntry
deriving DecidableEq

/-- The error enum of `orf_trimmer.rs`. -/
inductive OrfTrimError where
  | NoStartCodons
  | NoGroupStart
  | NoStopCodons (pos : Nat)
  | TrimFailed
deriving DecidableEq

/-- Sliding width-3 windows with their byte offsets, as produced by
`slice::windows(3).enumerate()`. -/
def codonWindows : Nat → List Nat → List (Nat × (Nat × Nat × Nat))
  | i, a :: rest =>
    match rest with
    | b :: c :: _ => (i, (a, b, c)) :: codonWindows (i + 1) rest
    | _ => []
  | _, [] => []

/-- Does a window equal `ATG` or `AUG`? -/
def isStart (t : Nat × Nat × Nat) : Bool :=
  (t.1 == 65 && t.2.1 == 84 && t.2.2 == 71) || (t.1 == 65 && t.2.1 == 85 && t.2.2 == 71)

/-- All start-codon offsets of one sequence (`find_starts` inner loop). -/
def startHits (s : List Nat) : List Nat :=
  ((codonWindows 0 (s.map toUpper)).filter (fun p => isStart p.2)).map Prod.fst

/-- The `starts` vector built by `find_starts`: one hit list per entry
slot, each hit pushed into `starts[entry.entry_num()]`.  `List.set`
models the in-range write (out-of-range indexing aborts in Rust and
never occurs for the positionally-numbered collections the program
builds, see `open_fasta`). -/
def startsTable (f : Fasta) (num_seqs : Nat) : List (List Nat) :=
  f.data.foldl
    (fun st e => (startHits e.sequence).foldl
      (fun st2 i => st2.set e.entry_number (st2.getD e.entry_number [] ++ [i])) st)
    (List.replicate num_seqs [])

/-- `find_starts` from `orf_trimmer.rs`. -/
def find_starts (f : Fasta) (num_seqs : Nat) : Except OrfTrimError (List (List Nat)) :=
  if (startsTable f num_seqs).isEmpty then Except.error OrfTrimError.NoStartCodons
  else Except.ok (startsTable f num_seqs)

/-- The rank-based vote weight of `find_group_start` (rank is 1-based). -/
def weight (r : Nat) : Nat :=
  match r with
  | 1 => 8
  | 2 => 4
  | 3 => 2
  | 4 => 1
  | _ => 0

/-- One `HashMap` update of `find_group_start`: add `v` to the score of
key `k`, inserting the key if absent (appended, i.e. insertion order). -/
def bump (tbl : List (Nat × Nat)) (k v : Nat) : List (Nat × Nat) :=
  if tbl.any (fun p => p.1 == k) then
    tbl.map (fun p => if p.1 == k then (p.1, p.2 + v) else p)
  else tbl ++ [(k, v)]

/-- Accumulate one enumerated hit into the score table. -/
def scoreStep (tbl : List (Nat × Nat)) (p : Nat × Nat) : List (Nat × Nat) :=
  bump tbl p.2 (weight (p.1 + 1))

/-- The Position Score Table built by `find_group_start`. -/
def accScores (starts : List (List Nat)) : List (Nat × Nat) :=
  starts.foldl (fun tbl l => l.enum.foldl scoreStep tbl) []

/-- One step of the max scan of `find_group_start`: keys only replace the
current best when their value is strictly greater (`value > max_value`). -/
def maxStep (acc : Option Nat × Nat) (p : Nat × Nat) : Option Nat × Nat :=
  if acc.2 < p.2 then (some p.1, p.2) else acc

/-- The max scan of `find_group_start`, starting from `usize::MIN`. -/
def maxScan (tbl : List (Nat × Nat)) : Option Nat × Nat :=
  tbl.foldl maxStep (none, 0)

/-- `find_group_start` from `orf_trimmer.rs`. -/
def find_group_start (starts : List (List Nat)) : Except OrfTrimError Nat :=
  match (maxScan (accScores starts)).1 with
  | some locus => Except.ok locus
  | none => Except.error OrfTrimError.NoGroupStart

/-- Does a triplet equal one of `TAG, TGA, TAA, UAG, UGA, UAA`? -/
def isStop (t : Nat × Nat × Nat) : Bool :=
  (t.1 == 84 && t.2.1 == 65 && t.2.2 == 71) ||
  (t.1 == 84 && t.2.1 == 71 && t.2.2 == 65) ||
  (t.1 == 84 && t.2.1 == 65 && t.2.2 == 65) ||
  (t.1 == 85 && t.2.1 == 65 && t.2.2 == 71) ||
  (t.1 == 85 && t.2.1 == 71 && t.2.2 == 65) ||
  (t.1 == 85 && t.2.1 == 65 && t.2.2 == 65)

/-- Non-overlapping triplets, dropping the remainder
(`Iterator::array_chunks::<3>`). -/
def chunks3 {α : Type} : List α → List (α × α × α)
  | a :: b :: c :: rest => (a, b, c) :: chunks3 rest
  | _ => []

/-- The per-sequence scan of `find_first_stops`: uppercase the
sub-sequence from `gs`, enumerate (so indices count gaps), filter out
gaps, chunk into triplets, and find the first stop triplet together with
the sub-sequence offset of its first byte. -/
def first_stop_hit (gs : Nat) (s : List Nat) : Option (Nat × (Nat × Nat × Nat)) :=
  ((chunks3 (((s.drop gs).map toUpper).enum.filter (fun p => p.2 != 45))).map
    (fun t => (t.1.1, (t.1.2, t.2.1.2, t.2.2.2)))).find? (fun p => isStop p.2)

/-- The position `find_first_stops` records for one sequence. -/
def first_stop_in_seq (gs : Nat) (s : List Nat) : Option Nat :=
  (first_stop_hit gs s).map (fun p => gs + p.1)

/-- The Stop-Position List gathered by `find_first_stops`: sequences not
longer than `gs` are skipped; sequences without an in-frame stop
contribute nothing. -/
def stopsList (f : Fasta) (gs : Nat) : List Nat :=
  f.data.filterMap
    (fun e => if gs < e.sequence.length then first_stop_in_seq gs e.sequence else none)

/-- `find_first_stops` from `orf_trimmer.rs`. -/
def find_first_stops (f : Fasta) (gs : Nat) : Except OrfTrimError (List Nat) :=
  if (stopsList f gs).isEmpty then Except.error (OrfTrimError.NoStopCodons (gs + 1))
  else Except.ok (stopsList f gs)

/-- One `HashMap` update of `mode_vec_usize`:
`*counts.entry(num).or_insert(1) += 1` (so a fresh key starts at 2). -/
def bumpCount (c : List (Nat × Nat)) (n : Nat) : List (Nat × Nat) :=
  if c.any (fun p => p.1 == n) then c.map (fun p => if p.1 == n then (p.1, p.2 + 1) else p)
  else c ++ [(n, 2)]

/-- The `counts` map of `mode_vec_usize`. -/
def countsTable (list : List Nat) : List (Nat × Nat) := list.foldl bumpCount []

/-- The `max_by_key` scan of `mode_vec_usize`; `max_by_key` keeps the
last of equally-maximal entries, hence the `≤`. -/
def modeScan (counts : List (Nat × Nat)) : Option (Nat × Nat) :=
  counts.foldl
    (fun acc p => match acc with
      | none => some p
      | some q => if q.2 ≤ p.2 then some p else some q) none

/-- `mode_vec_usize` from `math.rs`. -/
def mode_vec_usize (list : List Nat) : Except String Nat :=
  if (countsTable list).isEmpty then
    Except.error "Failed to calculate mode: input list is empty"
  else
    match modeScan (countsTable list) with
    | some p => Except.ok p.1
    | none => Except.error "Failed to calculate mode: no mode found"

/-- The per-entry loop body of `perform_trimming`: keep the bytes at
positions `start ≤ i < stop + 3`, preserving defline and ordinal. -/
def trimEntry (start stop : Nat) (e : FastaEntry) : FastaEntry :=
  { defline := e.defline
    sequence := (e.sequence.enum.filter
      (fun p => decide (start ≤ p.1 ∧ p.1 < stop + 3))).map Prod.snd
    entry_number := e.entry_number }

/-- `perform_trimming` from `orf_trimmer.rs`. -/
def perform_trimming (f : Fasta) (start stop : Nat) (out_fasta_name : String) :
    Except OrfTrimError Fasta :=
  if (f.data.map (trimEntry start stop)).length == 0 then
    Except.error OrfTrimError.TrimFailed
  else Except.ok { filename := out_fasta_name, data := f.data.map (trimEntry start stop) }

/-- `trim_to_orf` from `orf_trimmer.rs`: the six-step pipeline. -/
def trim_to_orf (inp_fasta : Fasta) (out_fasta : String) : Except OrfTrimError Fasta :=
  match find_starts inp_fasta inp_fasta.data.length with
  | Except.error e => Except.error e
  | Except.ok starts =>
    match find_group_start starts with
    | Except.error e => Except.error e
    | Except.ok group_start =>
      match find_first_stops inp_fasta group_start with
      | Except.error e => Except.error e
      | Except.ok first_stops =>
        match mode_vec_usize first_stops with
        | Except.error _ => Except.error OrfTrimError.TrimFailed
        | Except.ok group_stop => perform_trimming inp_fasta group_start group_stop out_fasta

/-- The parsing loop of `open_fasta` from `fasta_manager.rs`, with the
accumulated fasta, current defline, current sequence and current entry
number as explicit state; input is the file content split into lines of
bytes. -/
def parseFasta : Fasta → List Nat → List Nat → Nat → List (List Nat) → Fasta
  | fa, ldef, lseq, en, [] =>
    if lseq.isEmpty then fa
    else { fa with data := fa.data ++ [{ defline := ldef, sequence := lseq, entry_number := en }] }
  | fa, ldef, lseq, en, line :: rest =>
    if line.head? = some 62 then
      if lseq.isEmpty then parseFasta fa (line.drop 1) [] en rest
      else
        parseFasta
          { fa with data := fa.data ++ [{ defline := ldef, sequence := lseq, entry_number := en }] }
          (line.drop 1) [] (en + 1) rest
    else parseFasta fa ldef (lseq ++ line) en rest

/-- `open_fasta` from `fasta_manager.rs` on already-split lines. -/
def open_fasta (inp_fasta_name : String) (lines : List (List Nat)) : Fasta :=
  parseFasta { filename := inp_fasta_name, data := [] } [] [] 0 lines

/-! ### Specification-side definitions

Independent renderings of the spec's wording, to be compared with the
code-derived functions above. -/

/-- The position, within `l`, of the `n`-th (0-based) non-gap byte of `l`. -/
def nthNonGapIdx : List Nat → Nat → Option Nat
  | [], _ => none
  | b :: rest, n =>
    if b != 45 then
      match n with
      | 0 => some 0
      | Nat.succ m => (nthNonGapIdx rest m).map (· + 1)
    else (nthNonGapIdx rest n).map (· + 1)

/-- The consecutive triplets of the gap-filtered upper-cased sub-sequence
from offset `gs` — the spec's "gap-free stream" grouped into codons. -/
def gapFreeTriplets (gs : Nat) (s : List Nat) : List (Nat × Nat × Nat) :=
  chunks3 (((s.drop gs).map toUpper).filter (fun b => b != 45))

/-- The rank of the first stop triplet when walking triplets in order. -/
def firstStopRank : List (Nat × Nat × Nat) → Option Nat
  | [] => none
  | t :: rest => if isStop t then some 0 else (firstStopRank rest).map (· + 1)

/-- The spec's description of the recorded stop position: the start
offset plus the index (in the gapped sub-sequence) of the first non-gap
byte of the first stop triplet of the gap-filtered stream, that byte
being the `3k`-th non-gap byte when the triplet has rank `k`. -/
def spec_first_stop (gs : Nat) (s : List Nat) : Option Nat :=
  match firstStopRank (gapFreeTriplets gs s) with
  | some k => (nthNonGapIdx ((s.drop gs).map toUpper) (3 * k)).map (fun i => gs + i)
  | none => none

/-- Insert a block of `g` gap characters at position `j`; this keeps the
order of the non-gap residues of `s` unchanged. -/
def insertGaps (s : List Nat) (j g : Nat) : List Nat :=
  s.take j ++ (List.replicate g 45 ++ s.drop j)

/-- The spec's per-sequence vote: the hit at 1-based rank `r` in the hit
list contributes `weight r` to its offset. -/
def seqScore : Nat → List Nat → Nat → Nat
  | _, [], _ => 0
  | r, h :: t, o => (if h = o then weight r else 0) + seqScore (r + 1) t o

/-- The spec's accumulated score of offset `o` across all sequences. -/
def specScore (starts : List (List Nat)) (o : Nat) : Nat :=
  (starts.map (fun l => seqScore 1 l o)).sum

/-- Total score stored for key `o` in an association table. -/
def tblScore : List (Nat × Nat) → Nat → Nat
  | [], _ => 0
  | p :: t, o => (if p.1 = o then p.2 else 0) + tblScore t o

/-- The keys of an association table, in iteration order. -/
def keysOf (tbl : List (Nat × Nat)) : List Nat := tbl.map Prod.fst

instance instDecEqExcept {ε α : Type} [DecidableEq ε] [DecidableEq α] :
    DecidableEq (Except ε α)
  | Except.error a, Except.error b =>
    match decEq a b with
    | isTrue h => isTrue (by rw [h])
    | isFalse h => isFalse (fun hh => h (Except.error.inj hh))
  | Except.error _, Except.ok _ => isFalse (fun h => Except.noConfusion h)
  | Except.ok _, Except.error _ => isFalse (fun h => Except.noConfusion h)
  | Except.ok a, Except.ok b =>
    match decEq a b with
    | isTrue h => isTrue (by rw [h])
    | isFalse h => isFalse (fun hh => h (Except.ok.inj hh))

/-! ### Helper lemmas -/

theorem foldl_hits_length (k : Nat) (hits : List Nat) :
    ∀ st : List (List Nat),
      (hits.foldl (fun st2 i => st2.set k (st2.getD k [] ++ [i])) st).length = st.length := by
  induction hits with
  | nil => intro st; rfl
  | cons h t ih => intro st; rw [List.foldl_cons, ih, List.length_set]

theorem startsTable_length (f : Fasta) (n : Nat) : (startsTable f n).length = n := by
  have h : ∀ (entries : List FastaEntry) (st : List (List Nat)),
      (entries.foldl (fun st e => (startHits e.sequence).foldl
        (fun st2 i => st2.set e.entry_number (st2.getD e.entry_number [] ++ [i])) st) st).length
      = st.length := by
    intro entries
    induction entries with
    | nil => intro st; rfl
    | cons e t ih => intro st; rw [List.foldl_cons, ih, foldl_hits_length]
  unfold startsTable
  rw [h, List.length_replicate]

theorem startsTable_no_hits (f : Fasta) (n : Nat)
    (h : ∀ e ∈ f.data, startHits e.sequence = []) :
    startsTable f n = List.replicate n [] := by
  have key : ∀ (entries : List FastaEntry), (∀ e ∈ entries, startHits e.sequence = []) →
      ∀ st : List (List Nat),
        entries.foldl (fun st e => (startHits e.sequence).foldl
          (fun st2 i => st2.set e.entry_number (st2.getD e.entry_number [] ++ [i])) st) st = st := by
    intro entries
    induction entries with
    | nil => intro _ st; rfl
    | cons e t ih =>
      intro he st
      rw [List.foldl_cons, he e (List.mem_cons_self e t), List.foldl_nil]
      exact ih (fun x hx => he x (List.mem_cons_of_mem e hx)) st
  unfold startsTable
  exact key f.data h _

/-- Claim C7: the Mode Helper returns 7 on `[2,7,9,2,7,7,3]` and fails
(with the documented message) on the empty list. -/
theorem mode_vec_usize_examples :
    mode_vec_usize [2, 7, 9, 2, 7, 7, 3] = Except.ok 7 ∧
    mode_vec_usize [] = Except.error "Failed to calculate mode: input list is empty" :=
  ⟨by decide, rfl⟩

/-- Claim C2 (amended): the start-codon scanner fails with
`NoStartCodons` exactly when the entry count is zero; a non-empty,
positionally-numbered collection in which no sequence contains an
ATG/AUG window does NOT produce this error — it succeeds with a table of
empty hit lists (the subsequent group-start resolution then fails with
`NoGroupStart`). -/
theorem find_starts_noStartCodons_iff :
    (∀ (f : Fasta) (n : Nat), (∀ e ∈ f.data, e.entry_number < n) →
      (find_starts f n = Except.error OrfTrimError.NoStartCodons ↔ n = 0)) ∧
    (∀ (f : Fasta) (n : Nat), 0 < n → (∀ e ∈ f.data, startHits e.sequence = []) →
      find_starts f n = Except.ok (List.replicate n [])) := by
  constructor
  · intro f n _
    unfold find_starts
    constructor
    · intro h
      by_cases hemp : (startsTable f n).isEmpty
      · have hlen := startsTable_length f n
        rw [List.isEmpty_iff] at hemp
        rw [hemp] at hlen
        exact hlen.symm
      · rw [if_neg hemp] at h
        exact absurd h (by simp)
    · intro h
      subst h
      have hnil : startsTable f 0 = [] := List.length_eq_zero.mp (startsTable_length f 0)
      rw [hnil]
      rfl
  · intro f n hn hh
    have ht := startsTable_no_hits f n hh
    unfold find_starts
    rw [ht]
    have hne : (List.replicate n ([] : List Nat)).isEmpty = false := by
      cases n with
      | zero => exact absurd hn (lt_irrefl 0)
      | succ m => rfl
    rw [hne]
    simp

/-- Claim C2 counterexample: a non-empty collection whose single
sequence `CCC` contains no start codon makes `find_starts` return `Ok`
(with one empty hit list), not the `NoStartCodons` error the claim
requires. -/
theorem find_starts_no_hits_counterexample :
    find_starts ⟨"c", [⟨[97], [67, 67, 67], 0⟩]⟩ 1 = Except.ok [[]] ∧
    find_starts ⟨"c", [⟨[97], [67, 67, 67], 0⟩]⟩ 1 ≠ Except.error OrfTrimError.NoStartCodons := by
  decide

theorem find_starts_noStartCodons_iff_witness :
    find_starts ⟨"c", [⟨[97], [67, 67, 67], 0⟩]⟩ 1 = Except.ok (List.replicate 1 []) ∧
    find_starts ⟨"e", []⟩ 0 = Except.error OrfTrimError.NoStartCodons :=
  ⟨find_starts_noStartCodons_iff.2 ⟨"c", [⟨[97], [67, 67, 67], 0⟩]⟩ 1 (by decide) (by decide),
   (find_starts_noStartCodons_iff.1 ⟨"e", []⟩ 0 (by decide)).mpr rfl⟩

/-- Claim C5 (amended): when no sequence yields a qualifying in-frame
stop, `find_first_stops` fails with `NoStopCodons` whose payload is the
consensus start offset PLUS ONE (its 1-based locus), not the offset
itself; and every error it returns carries that payload. -/
theorem find_first_stops_error_payload :
    (∀ (f : Fasta) (gs : Nat) (e : OrfTrimError),
      find_first_stops f gs = Except.error e → e = OrfTrimError.NoStopCodons (gs + 1)) ∧
    (∀ (f : Fasta) (gs : Nat),
      (∀ en ∈ f.data, gs < en.sequence.length → first_stop_in_seq gs en.sequence = none) →
      find_first_stops f gs = Except.error (OrfTrimError.NoStopCodons (gs + 1))) := by
  constructor
  · intro f gs e h
    unfold find_first_stops at h
    by_cases hemp : (stopsList f gs).isEmpty
    · rw [if_pos hemp] at h
      exact (Except.error.inj h).symm
    · rw [if_neg hemp] at h
      exact absurd h (by simp)
  · intro f gs h
    have hnil : stopsList f gs = [] := by
      unfold stopsList
      rw [List.filterMap_eq_nil_iff]
      intro e he
      by_cases hlen : gs < e.sequence.length
      · rw [if_pos hlen]
        exact h e he hlen
      · rw [if_neg hlen]
    unfold find_first_stops
    rw [hnil]
    rfl

/-- Claim C5 counterexample: with a single length-1 sequence and
consensus start offset 5 the error payload is `6 = 5 + 1`, not the
start offset `5` the claim states. -/
theorem find_first_stops_payload_counterexample :
    find_first_stops ⟨"x", [⟨[], [65], 0⟩]⟩ 5 = Except.error (OrfTrimError.NoStopCodons 6) ∧
    find_first_stops ⟨"x", [⟨[], [65], 0⟩]⟩ 5 ≠ Except.error (OrfTrimError.NoStopCodons 5) := by
  decide

theorem find_first_stops_error_payload_witness :
    find_first_stops ⟨"x", [⟨[], [65], 0⟩]⟩ 5 = Except.error (OrfTrimError.NoStopCodons 6) :=
  find_first_stops_error_payload.2 ⟨"x", [⟨[], [65], 0⟩]⟩ 5 (by decide)

theorem range_interval_count (a b : Nat) :
    ∀ n, ((List.range n).filter (fun i => decide (a ≤ i ∧ i < b))).length = min n b - a := by
  intro n
  induction n with
  | zero => simp
  | succ m ih =>
    rw [List.range_succ, List.filter_append, List.length_append, ih]
    by_cases hm : a ≤ m ∧ m < b
    · simp [List.filter_cons, hm]
      omega
    · simp [List.filter_cons, hm]
      omega

theorem trimEntry_length (start stop : Nat) (e : FastaEntry) :
    (trimEntry start stop e).sequence.length
      = min e.sequence.length (stop + 3) - start := by
  have key : (e.sequence.enum.map Prod.fst).filter (fun i => decide (start ≤ i ∧ i < stop + 3))
      = (e.sequence.enum.filter (fun p => decide (start ≤ p.1 ∧ p.1 < stop + 3))).map Prod.fst := by
    rw [List.filter_map]
    rfl
  have len_eq : ((e.sequence.enum.filter
        (fun p => decide (start ≤ p.1 ∧ p.1 < stop + 3))).map Prod.fst).length
      = min e.sequence.length (stop + 3) - start := by
    rw [← key, List.enum_map_fst, range_interval_count]
  unfold trimEntry
  simp only [List.length_map] at len_eq ⊢
  exact len_eq

/-- Claim C4 (amended): for every successful trim, the output has one
record per input record; each output sequence has length
`min(original_length, stop+3) - start` (natural subtraction), defline
and ordinal preserved.  In particular a sequence whose original length
does not exceed the start offset is PRESENT in the successful output,
with an empty sequence, not absent. -/
theorem perform_trimming_window :
    ∀ (f : Fasta) (start stop : Nat) (out : String) (g : Fasta),
      perform_trimming f start stop out = Except.ok g →
      g.data.length = f.data.length ∧
      ∀ i, i < f.data.length →
        (g.data.getD i default).sequence.length
          = min (f.data.getD i default).sequence.length (stop + 3) - start ∧
        (g.data.getD i default).defline = (f.data.getD i default).defline ∧
        (g.data.getD i default).entry_number = (f.data.getD i default).entry_number := by
  intro f start stop out g h
  unfold perform_trimming at h
  by_cases hz : ((f.data.map (trimEntry start stop)).length == 0) = true
  · rw [if_pos hz] at h
    exact absurd h (by simp)
  · rw [if_neg hz] at h
    have hg : g.data = f.data.map (trimEntry start stop) := by
      have h2 := Except.ok.inj h
      rw [← h2]
  
    constructor
    · rw [hg, List.length_map]
    · intro i hi
      have hget : g.data.getD i default = trimEntry start stop (f.data.getD i default) := by
        rw [hg, List.getD_eq_get?, List.getD_eq_get?, List.get?_map]
        rw [List.get?_eq_get hi]
        rfl
      rw [hget]
      exact ⟨trimEntry_length _ _ _, rfl, rfl⟩

/-- Claim C4 counterexample: trimming `[ATGTAG, A]` with start 2 and
stop 2 succeeds and the second record — whose length 1 does not exceed
the start offset 2 — is still present in the output (with an empty
sequence), contradicting the claimed absence. -/
theorem perform_trimming_short_seq_present :
    perform_trimming ⟨"i", [⟨[97], [65, 84, 71, 84, 65, 71], 0⟩, ⟨[98], [65], 1⟩]⟩ 2 2 "o"
      = Except.ok ⟨"o", [⟨[97], [71, 84, 65], 0⟩, ⟨[98], [], 1⟩]⟩ ∧
    ([(⟨[97], [71, 84, 65], 0⟩ : FastaEntry), ⟨[98], [], 1⟩].map FastaEntry.entry_number
      = [0, 1]) := by
  decide

theorem perform_trimming_window_witness :
    perform_trimming ⟨"i", [⟨[97], [65, 84, 71, 84, 65, 71], 0⟩]⟩ 0 0 "o"
      = Except.ok ⟨"o", [⟨[97], [65, 84, 71], 0⟩]⟩ ∧
    (⟨"o", [⟨[97], [65, 84, 71], 0⟩]⟩ : Fasta).data.length
      = (⟨"i", [⟨[97], [65, 84, 71, 84, 65, 71], 0⟩]⟩ : Fasta).data.length ∧
    ((⟨"o", [⟨[97], [65, 84, 71], 0⟩]⟩ : Fasta).data.getD 0 default).sequence.length
      = min 6 3 - 0 :=
  ⟨by decide,
   (perform_trimming_window _ 0 0 "o" _ (by decide)).1,
   by
    have h := ((perform_trimming_window
      ⟨"i", [⟨[97], [65, 84, 71, 84, 65, 71], 0⟩]⟩ 0 0 "o"
      ⟨"o", [⟨[97], [65, 84, 71], 0⟩]⟩ (by decide)).2 0 (by decide)).1
    simpa using h⟩

/-! ### Stop-scanner correspondence lemmas (claims C1 and C6) -/

theorem gapFilter_map_snd (l : List Nat) :
    ∀ i, ((List.enumFrom i l).filter (fun p => p.2 != 45)).map Prod.snd
      = l.filter (fun b => b != 45) := by
  induction l with
  | nil => intro i; rfl
  | cons b t ih =>
    intro i
    simp only [List.enumFrom_cons, List.filter_cons]
    by_cases hb : (b != 45) = true
    · simp [hb, ih]
    · simp [hb, ih]

theorem gapFilter_get_fst (l : List Nat) :
    ∀ i m, (((List.enumFrom i l).filter (fun p => p.2 != 45)).get? m).map Prod.fst
      = (nthNonGapIdx l m).map (fun j => j + i) := by
  induction l with
  | nil => intro i m; rfl
  | cons b t ih =>
    intro i m
    by_cases hb : (b != 45) = true
    · have hf : (List.enumFrom i (b :: t)).filter (fun p => p.2 != 45)
          = (i, b) :: (List.enumFrom (i + 1) t).filter (fun p => p.2 != 45) := by
        simp [List.enumFrom_cons, List.filter_cons, hb]
      rw [hf]
      cases m with
      | zero => simp [nthNonGapIdx, hb]
      | succ m' =>
        have hih := ih (i + 1) m'
        simp only [List.get?_cons_succ]
        rw [hih]
        simp only [nthNonGapIdx, hb, if_true]
        cases hnn : nthNonGapIdx t m' with
        | none => simp [hnn]
        | some v => simp [hnn]; omega
    · have hf : (List.enumFrom i (b :: t)).filter (fun p => p.2 != 45)
          = (List.enumFrom (i + 1) t).filter (fun p => p.2 != 45) := by
        simp only [List.enumFrom_cons, List.filter_cons]
        rw [if_neg (by simpa using hb)]
      rw [hf, ih (i + 1) m]
      have hb2 : (b != 45) = false := by rwa [Bool.not_eq_true] at hb
      simp only [nthNonGapIdx, hb2]
      cases hnn : nthNonGapIdx t m with
      | none => simp [hnn]
      | some v => simp [hnn]; omega

theorem chunks3_map {α β : Type} (f : α → β) :
    ∀ l : List α, chunks3 (l.map f) = (chunks3 l).map (fun t => (f t.1, f t.2.1, f t.2.2))
  | [] => rfl
  | [_] => rfl
  | [_, _] => rfl
  | a :: b :: c :: rest => by
    simp only [List.map_cons, chunks3]
    rw [chunks3_map f rest]

theorem chunks3_get {α : Type} :
    ∀ (l : List α) (k : Nat), (chunks3 l).get? k
      = (l.get? (3 * k)).bind (fun a => (l.get? (3 * k + 1)).bind
          (fun b => (l.get? (3 * k + 2)).map (fun c => (a, b, c))))
  | [], k => by simp [chunks3]
  | [a], k => by
    cases k with
    | zero => simp [chunks3]
    | succ k' =>
      have h1 : ([a] : List α).get? (3 * (k' + 1)) = none :=
        List.get?_eq_none.mpr (by simp; omega)
      simp [chunks3, h1]
  | [a, b], k => by
    cases k with
    | zero =>
      have h1 : ([a, b] : List α).get? 2 = none := rfl
      simp [chunks3, h1]
    | succ k' =>
      have h1 : ([a, b] : List α).get? (3 * (k' + 1)) = none :=
        List.get?_eq_none.mpr (by simp; omega)
      simp [chunks3, h1]
  | a :: b :: c :: rest, k => by
    cases k with
    | zero => simp [chunks3]
    | succ k' =>
      rw [show 3 * (k' + 1) = 3 * k' + 3 by ring]
      show (chunks3 rest).get? k' = _
      rw [chunks3_get rest k']
      rfl

theorem firstStopRank_lt :
    ∀ (l : List (Nat × Nat × Nat)) (k : Nat), firstStopRank l = some k → k < l.length
  | [], k => by simp [firstStopRank]
  | t :: rest, k => by
    intro hk
    unfold firstStopRank at hk
    by_cases h : isStop t = true
    · rw [if_pos h] at hk
      have := Option.some.inj hk
      simp [← this]
    · rw [if_neg h] at hk
      cases hr : firstStopRank rest with
      | none => rw [hr] at hk; simp at hk
      | some k' =>
        rw [hr] at hk
        simp only [Option.map_some'] at hk
        have := firstStopRank_lt rest k' hr
        have hkk := Option.some.inj hk
        simp only [List.length_cons]
        omega

theorem find_stop_correspond :
    ∀ cp : List ((Nat × Nat) × (Nat × Nat) × (Nat × Nat)),
      (cp.map (fun t => (t.1.1, (t.1.2, t.2.1.2, t.2.2.2)))).find? (fun p => isStop p.2)
      = (firstStopRank (cp.map (fun t => (t.1.2, t.2.1.2, t.2.2.2)))).bind
          (fun k => (cp.get? k).map (fun t => (t.1.1, (t.1.2, t.2.1.2, t.2.2.2))))
  | [] => rfl
  | t :: rest => by
    by_cases h : isStop (t.1.2, t.2.1.2, t.2.2.2) = true
    · simp [List.find?, firstStopRank, h]
    · have hb : isStop (t.1.2, t.2.1.2, t.2.2.2) = false := by rwa [Bool.not_eq_true] at h
      cases hr : firstStopRank (rest.map (fun t => (t.1.2, t.2.1.2, t.2.2.2))) with
      | none => simp [List.find?, firstStopRank, hb, hr, find_stop_correspond rest]
      | some k => simp [List.find?, firstStopRank, hb, hr, find_stop_correspond rest]

theorem gapFreeTriplets_eq (gs : Nat) (s : List Nat) :
    gapFreeTriplets gs s
      = (chunks3 ((((s.drop gs).map toUpper).enum).filter (fun p => p.2 != 45))).map
          (fun t => (t.1.2, t.2.1.2, t.2.2.2)) := by
  unfold gapFreeTriplets
  rw [show ((s.drop gs).map toUpper).enum = List.enumFrom 0 ((s.drop gs).map toUpper) from rfl]
  rw [← gapFilter_map_snd ((s.drop gs).map toUpper) 0, chunks3_map]

theorem first_stop_hit_eq (gs : Nat) (s : List Nat) :
    first_stop_hit gs s
      = (firstStopRank (gapFreeTriplets gs s)).bind
          (fun k => ((chunks3 ((((s.drop gs).map toUpper).enum).filter
              (fun p => p.2 != 45))).get? k).map
            (fun t => (t.1.1, (t.1.2, t.2.1.2, t.2.2.2)))) := by
  unfold first_stop_hit
  rw [find_stop_correspond, gapFreeTriplets_eq]

theorem gapFilter_get_fst_enum (l : List Nat) (m : Nat) :
    ((l.enum.filter (fun p => p.2 != 45)).get? m).map Prod.fst = nthNonGapIdx l m := by
  rw [show l.enum = List.enumFrom 0 l from rfl, gapFilter_get_fst l 0 m]
  cases hnn : nthNonGapIdx l m <;> simp [hnn]

theorem chunks3_fst_nth (l : List Nat) (k : Nat)
    (hk : k < (chunks3 (l.enum.filter (fun p => p.2 != 45))).length) :
    ((chunks3 (l.enum.filter (fun p => p.2 != 45))).get? k).map (fun t => t.1.1)
      = nthNonGapIdx l (3 * k) := by
  have hfst := gapFilter_get_fst_enum l (3 * k)
  have hcg := chunks3_get (l.enum.filter (fun p => p.2 != 45)) k
  obtain ⟨t, ht⟩ : ∃ t, (chunks3 (l.enum.filter (fun p => p.2 != 45))).get? k = some t := by
    rw [List.get?_eq_get hk]
    exact ⟨_, rfl⟩
  rw [ht] at hcg
  rw [ht]
  cases h1 : (l.enum.filter (fun p => p.2 != 45)).get? (3 * k) with
  | none => rw [h1] at hcg; simp at hcg
  | some p1 =>
    rw [h1] at hcg hfst
    cases h2 : (l.enum.filter (fun p => p.2 != 45)).get? (3 * k + 1) with
    | none => rw [h2] at hcg; simp at hcg
    | some p2 =>
      rw [h2] at hcg
      cases h3 : (l.enum.filter (fun p => p.2 != 45)).get? (3 * k + 2) with
      | none => rw [h3] at hcg; simp at hcg
      | some p3 =>
        rw [h3] at hcg
        simp only [Option.some_bind, Option.map_some'] at hcg hfst
        have ht3 := Option.some.inj hcg
        rw [ht3, ← hfst]
        rfl

/-- Claim C1: for every sequence and start offset below its length, the
position the stop scanner records equals the start offset plus the
index, in the (gapped) sub-sequence, of the first non-gap byte of the
first stop triplet of the gap-filtered stream — that byte being the
`3k`-th non-gap byte when the stop triplet has rank `k`. -/
theorem first_stop_position_spec (s : List Nat) (gs : Nat) (h : gs < s.length) :
    first_stop_in_seq gs s = spec_first_stop gs s := by
  unfold first_stop_in_seq spec_first_stop
  rw [first_stop_hit_eq]
  cases hr : firstStopRank (gapFreeTriplets gs s) with
  | none => rfl
  | some k =>
    have hk := firstStopRank_lt _ k hr
    rw [gapFreeTriplets_eq, List.length_map] at hk
    have haux := chunks3_fst_nth ((s.drop gs).map toUpper) k hk
    show ((((chunks3 ((((s.drop gs).map toUpper).enum).filter
        (fun p => p.2 != 45))).get? k).map
          (fun t => (t.1.1, (t.1.2, t.2.1.2, t.2.2.2)))).map (fun p => gs + p.1))
      = (nthNonGapIdx ((s.drop gs).map toUpper) (3 * k)).map (fun i => gs + i)
    rw [Option.map_map, ← haux, Option.map_map]
    rfl

theorem first_stop_position_spec_witness :
    0 < ([84, 65, 71] : List Nat).length ∧
    first_stop_in_seq 0 [84, 65, 71] = spec_first_stop 0 [84, 65, 71] ∧
    first_stop_in_seq 0 [84, 65, 71] = some 0 :=
  ⟨by decide, first_stop_position_spec [84, 65, 71] 0 (by decide), by decide⟩

theorem first_stop_hit_snd (gs : Nat) (s : List Nat) :
    (first_stop_hit gs s).map Prod.snd
      = (firstStopRank (gapFreeTriplets gs s)).bind
          (fun k => (gapFreeTriplets gs s).get? k) := by
  rw [first_stop_hit_eq]
  cases hr : firstStopRank (gapFreeTriplets gs s) with
  | none => rfl
  | some k =>
    simp only [Option.some_bind, Option.map_map]
    rw [gapFreeTriplets_eq, List.get?_map]
    rfl

theorem all45_filter_nil :
    ∀ l : List Nat, (∀ b ∈ l, b = 45) → (l.map toUpper).filter (fun b => b != 45) = [] := by
  intro l
  induction l with
  | nil => intro _; rfl
  | cons b t ih =>
    intro h
    have hb : b = 45 := h b (List.mem_cons_self b t)
    subst hb
    have ht := ih (fun x hx => h x (List.mem_cons_of_mem _ hx))
    simp only [List.map_cons, List.filter_cons]
    rw [show toUpper 45 = 45 from rfl]
    simpa using ht

theorem filteredSub_insertGaps (s : List Nat) (gs j g : Nat) (h : gs ≤ j) :
    (((insertGaps s j g).drop gs).map toUpper).filter (fun b => b != 45)
      = ((s.drop gs).map toUpper).filter (fun b => b != 45) := by
  have hmid : ∀ m2, ((List.drop m2 (List.replicate g 45)).map toUpper).filter
      (fun b => b != 45) = [] := by
    intro m2
    apply all45_filter_nil
    intro b hb
    exact (List.mem_replicate.mp (List.mem_of_mem_drop hb)).2
  have key : ((List.drop (gs - (s.take j).length - g) (s.drop j)).map toUpper).filter
        (fun b => b != 45)
      = ((List.drop (gs - (s.take j).length) (s.drop j)).map toUpper).filter
        (fun b => b != 45) := by
    rcases le_or_lt gs (s.take j).length with hle | hgt
    · rw [Nat.sub_eq_zero_of_le hle]
      simp
    · have hlen := List.length_take j s
      have hB : s.drop j = [] := List.drop_eq_nil_of_le (by omega)
      rw [hB]
      simp
  unfold insertGaps
  conv_rhs => rw [← List.take_append_drop j s]
  rw [List.drop_append_eq_append_drop, List.drop_append_eq_append_drop,
      List.drop_append_eq_append_drop]
  simp only [List.map_append, List.filter_append, List.length_replicate]
  rw [hmid, key]
  simp

/-- Claim C6 (amended): inserting gap characters at positions at or
after the start offset (so the gap-filtered sub-sequence from the start
offset is unchanged) does not change which codon — which gap-filtered
triplet, by rank and residues — the stop scanner identifies as the
first stop; only the reported byte offset shifts.  Insertions before
the start offset can shift the reading frame and change the codon. -/
theorem first_stop_gap_invariant (s : List Nat) (gs j g : Nat) (h : gs ≤ j) :
    gapFreeTriplets gs (insertGaps s j g) = gapFreeTriplets gs s ∧
    firstStopRank (gapFreeTriplets gs (insertGaps s j g))
      = firstStopRank (gapFreeTriplets gs s) ∧
    (first_stop_hit gs (insertGaps s j g)).map Prod.snd
      = (first_stop_hit gs s).map Prod.snd := by
  have ht : gapFreeTriplets gs (insertGaps s j g) = gapFreeTriplets gs s := by
    unfold gapFreeTriplets
    rw [filteredSub_insertGaps s gs j g h]
  refine ⟨ht, by rw [ht], ?_⟩
  rw [first_stop_hit_snd, first_stop_hit_snd, ht]

/-- Claim C6 counterexample: for the sequence `CCCTGAATAA` with start
offset 1, the scanner identifies the rank-2 triplet `TAA`; inserting
one gap at position 0 (which keeps the order of all non-gap residues)
makes it identify the rank-1 triplet `TGA` instead — the identified
codon changes, not merely its byte offset. -/
theorem gap_insertion_changes_codon :
    (first_stop_hit 1 [67, 67, 67, 84, 71, 65, 65, 84, 65, 65]).map Prod.snd
      = some (84, 65, 65) ∧
    (first_stop_hit 1 (insertGaps [67, 67, 67, 84, 71, 65, 65, 84, 65, 65] 0 1)).map Prod.snd
      = some (84, 71, 65) ∧
    (first_stop_hit 1 (insertGaps [67, 67, 67, 84, 71, 65, 65, 84, 65, 65] 0 1)).map Prod.snd
      ≠ (first_stop_hit 1 [67, 67, 67, 84, 71, 65, 65, 84, 65, 65]).map Prod.snd := by
  decide

theorem first_stop_gap_invariant_witness :
    (0 : Nat) ≤ 2 ∧
    (first_stop_hit 0 (insertGaps [84, 65, 71] 2 2)).map Prod.snd
      = (first_stop_hit 0 [84, 65, 71]).map Prod.snd ∧
    (first_stop_hit 0 (insertGaps [84, 65, 71] 2 2)).map Prod.snd = some (84, 65, 71) :=
  ⟨by decide, (first_stop_gap_invariant [84, 65, 71] 0 2 2 (by decide)).2.2, by decide⟩

/-! ### Score-table lemmas (claim C3) -/

theorem keysOf_map_preserve (tbl : List (Nat × Nat)) (k v : Nat) :
    keysOf (tbl.map (fun p => if p.1 == k then (p.1, p.2 + v) else p)) = keysOf tbl := by
  unfold keysOf
  rw [List.map_map]
  apply List.map_congr_left
  intro p _
  by_cases hp : (p.1 == k) = true
  · simp [Function.comp, hp]
  · simp [Function.comp, hp]

theorem bump_keys (tbl : List (Nat × Nat)) (k v : Nat) :
    (keysOf (bump tbl k v) = keysOf tbl ∧ k ∈ keysOf tbl) ∨
    (keysOf (bump tbl k v) = keysOf tbl ++ [k] ∧ k ∉ keysOf tbl) := by
  unfold bump
  by_cases ha : tbl.any (fun p => p.1 == k) = true
  · left
    rw [if_pos ha]
    refine ⟨keysOf_map_preserve tbl k v, ?_⟩
    obtain ⟨p, hp, he⟩ := List.any_eq_true.mp ha
    have hpk : p.1 = k := by simpa using he
    rw [← hpk]
    exact List.mem_map_of_mem Prod.fst hp
  · right
    rw [if_neg ha]
    constructor
    · unfold keysOf
      rw [List.map_append]
      rfl
    · intro hk
      apply ha
      obtain ⟨p, hp, he⟩ := List.mem_map.mp hk
      exact List.any_eq_true.mpr ⟨p, hp, by simp [he]⟩

theorem bump_nodup (tbl : List (Nat × Nat)) (k v : Nat) (h : (keysOf tbl).Nodup) :
    (keysOf (bump tbl k v)).Nodup := by
  rcases bump_keys tbl k v with ⟨he, _⟩ | ⟨he, hnk⟩
  · rwa [he]
  · rw [he, List.nodup_append]
    refine ⟨h, List.nodup_singleton k, ?_⟩
    intro a ha hb
    rw [List.mem_singleton] at hb
    subst hb
    exact hnk ha

theorem bump_mem (tbl : List (Nat × Nat)) (k v o : Nat) :
    o ∈ keysOf (bump tbl k v) ↔ o ∈ keysOf tbl ∨ o = k := by
  rcases bump_keys tbl k v with ⟨he, hk⟩ | ⟨he, _⟩
  · rw [he]
    constructor
    · exact Or.inl
    · rintro (h1 | h1)
      · exact h1
      · rwa [h1]
  · rw [he, List.mem_append, List.mem_singleton]

theorem tblScore_append (t1 t2 : List (Nat × Nat)) (o : Nat) :
    tblScore (t1 ++ t2) o = tblScore t1 o + tblScore t2 o := by
  induction t1 with
  | nil => simp [tblScore]
  | cons p t ih => simp [tblScore, List.cons_append, ih]; omega

theorem tblScore_not_mem : ∀ (tbl : List (Nat × Nat)) (o : Nat), o ∉ keysOf tbl →
    tblScore tbl o = 0 := by
  intro tbl
  induction tbl with
  | nil => intro o _; rfl
  | cons p t ih =>
    intro o h
    unfold keysOf at h
    rw [List.map_cons, List.mem_cons] at h
    push_neg at h
    unfold tblScore
    rw [if_neg (fun he => h.1 he.symm), ih o h.2]

theorem tblScore_mem_eq : ∀ (tbl : List (Nat × Nat)) (p : Nat × Nat),
    (keysOf tbl).Nodup → p ∈ tbl → tblScore tbl p.1 = p.2 := by
  intro tbl
  induction tbl with
  | nil => intro p _ hp; cases hp
  | cons q t ih =>
    intro p hnd hp
    have hnd' : q.1 ∉ keysOf t ∧ (keysOf t).Nodup := List.nodup_cons.mp hnd
    rcases List.mem_cons.mp hp with h1 | h1
    · subst h1
      unfold tblScore
      rw [if_pos rfl, tblScore_not_mem t p.1 hnd'.1, Nat.add_zero]
    · have hq : q.1 ≠ p.1 := by
        intro he
        exact hnd'.1 (he ▸ List.mem_map_of_mem Prod.fst h1)
      unfold tblScore
      rw [if_neg hq, ih p hnd'.2 h1, Nat.zero_add]

theorem mem_of_key : ∀ (tbl : List (Nat × Nat)) (o : Nat),
    (keysOf tbl).Nodup → o ∈ keysOf tbl → (o, tblScore tbl o) ∈ tbl := by
  intro tbl
  induction tbl with
  | nil => intro o _ ho; cases ho
  | cons q t ih =>
    intro o hnd ho
    have hnd' : q.1 ∉ keysOf t ∧ (keysOf t).Nodup := List.nodup_cons.mp hnd
    unfold keysOf at ho
    rw [List.map_cons, List.mem_cons] at ho
    rcases ho with h1 | h1
    · subst h1
      unfold tblScore
      rw [if_pos rfl, tblScore_not_mem t q.1 hnd'.1, Nat.add_zero]
      exact List.mem_cons_self _ _
    · have hq : q.1 ≠ o := by
        intro he
        exact hnd'.1 (he ▸ h1)
      unfold tblScore
      rw [if_neg hq, Nat.zero_add]
      exact List.mem_cons_of_mem q (ih o hnd'.2 h1)

theorem tblScore_map_ne : ∀ (tbl : List (Nat × Nat)) (k v o : Nat), o ≠ k →
    tblScore (tbl.map (fun p => if p.1 == k then (p.1, p.2 + v) else p)) o
      = tblScore tbl o := by
  intro tbl
  induction tbl with
  | nil => intro k v o _; rfl
  | cons q t ih =>
    intro k v o hne
    simp only [List.map_cons]
    unfold tblScore
    rw [ih k v o hne]
    congr 1
    by_cases hq : (q.1 == k) = true
    · have hqk : q.1 = k := by simpa using hq
      rw [if_pos hq]
      have hno : q.1 ≠ o := fun he => hne (he ▸ hqk)
      rw [if_neg hno, if_neg hno]
    · rw [if_neg hq]

theorem tblScore_map_eq : ∀ (tbl : List (Nat × Nat)) (k v : Nat), (keysOf tbl).Nodup →
    k ∈ keysOf tbl →
    tblScore (tbl.map (fun p => if p.1 == k then (p.1, p.2 + v) else p)) k
      = tblScore tbl k + v := by
  intro tbl
  induction tbl with
  | nil => intro k v _ hk; cases hk
  | cons q t ih =>
    intro k v hnd hk
    have hnd' : q.1 ∉ keysOf t ∧ (keysOf t).Nodup := List.nodup_cons.mp hnd
    by_cases hq : (q.1 == k) = true
    · have hqk : q.1 = k := by simpa using hq
      have hmap : t.map (fun p => if p.1 == k then (p.1, p.2 + v) else p) = t := by
        have hall : ∀ p ∈ t, (if p.1 == k then (p.1, p.2 + v) else p) = p := by
          intro p hp
          have hpk : p.1 ≠ k := by
            intro he
            exact hnd'.1 (by rw [hqk, ← he]; exact List.mem_map_of_mem Prod.fst hp)
          simp [hpk]
        calc t.map (fun p => if p.1 == k then (p.1, p.2 + v) else p)
            = t.map id := List.map_congr_left hall
          _ = t := List.map_id t
      simp only [List.map_cons]
      rw [if_pos hq, hmap]
      unfold tblScore
      rw [if_pos hqk, if_pos hqk]
      have ht0 : tblScore t k = 0 := tblScore_not_mem t k (hqk ▸ hnd'.1)
      rw [ht0]
      omega
    · have hqk : q.1 ≠ k := by simpa using hq
      have hkt : k ∈ keysOf t := by
        unfold keysOf at hk
        rw [List.map_cons, List.mem_cons] at hk
        rcases hk with h1 | h1
        · exact absurd h1.symm hqk
        · exact h1
      simp only [List.map_cons]
      rw [if_neg hq]
      unfold tblScore
      rw [ih k v hnd'.2 hkt]
      omega

theorem bump_score (k v o : Nat) : ∀ tbl : List (Nat × Nat), (keysOf tbl).Nodup →
    tblScore (bump tbl k v) o = tblScore tbl o + (if o = k then v else 0) := by
  intro tbl h
  unfold bump
  by_cases ha : tbl.any (fun p => p.1 == k) = true
  · rw [if_pos ha]
    have hk : k ∈ keysOf tbl := by
      obtain ⟨p, hp, he⟩ := List.any_eq_true.mp ha
      have hpk : p.1 = k := by simpa using he
      rw [← hpk]
      exact List.mem_map_of_mem Prod.fst hp
    by_cases ho : o = k
    · subst ho
      rw [tblScore_map_eq tbl o v h hk, if_pos rfl]
    · rw [tblScore_map_ne tbl k v o ho, if_neg ho, Nat.add_zero]
  · rw [if_neg ha, tblScore_append]
    congr 1
    unfold tblScore
    by_cases ho : o = k
    · rw [if_pos ho.symm, if_pos ho]
      rfl
    · rw [if_neg (fun he => ho he.symm), if_neg ho]
      simp [tblScore]

theorem inner_fold_spec (o : Nat) :
    ∀ (l : List Nat) (r : Nat) (t : List (Nat × Nat)), (keysOf t).Nodup →
      (keysOf ((List.enumFrom r l).foldl scoreStep t)).Nodup ∧
      tblScore ((List.enumFrom r l).foldl scoreStep t) o
        = tblScore t o + seqScore (r + 1) l o ∧
      (o ∈ keysOf ((List.enumFrom r l).foldl scoreStep t) ↔ o ∈ keysOf t ∨ o ∈ l) := by
  intro l
  induction l with
  | nil =>
    intro r t h
    refine ⟨h, ?_, ?_⟩
    · simp [List.enumFrom, seqScore]
    · simp [List.enumFrom]
  | cons hd tl ih =>
    intro r t h
    have hstep : (List.enumFrom r (hd :: tl)).foldl scoreStep t
        = (List.enumFrom (r + 1) tl).foldl scoreStep (bump t hd (weight (r + 1))) := by
      rw [List.enumFrom_cons, List.foldl_cons]
      rfl
    have hnd2 : (keysOf (bump t hd (weight (r + 1)))).Nodup := bump_nodup t hd _ h
    obtain ⟨ih1, ih2, ih3⟩ := ih (r + 1) (bump t hd (weight (r + 1))) hnd2
    refine ⟨by rw [hstep]; exact ih1, ?_, ?_⟩
    · rw [hstep, ih2, bump_score hd (weight (r + 1)) o t h]
      simp only [seqScore]
      by_cases ho : o = hd
      · rw [if_pos ho, if_pos ho.symm]
        omega
      · rw [if_neg ho, if_neg (fun he => ho he.symm)]
        omega
    · rw [hstep, ih3, bump_mem t hd _ o]
      constructor
      · rintro ((h1 | h1) | h1)
        · exact Or.inl h1
        · exact Or.inr (by rw [h1]; exact List.mem_cons_self hd tl)
        · exact Or.inr (List.mem_cons_of_mem hd h1)
      · rintro (h1 | h1)
        · exact Or.inl (Or.inl h1)
        · rcases List.mem_cons.mp h1 with h2 | h2
          · exact Or.inl (Or.inr h2)
          · exact Or.inr h2

theorem acc_fold_spec (o : Nat) :
    ∀ (starts : List (List Nat)) (t : List (Nat × Nat)), (keysOf t).Nodup →
      (keysOf (starts.foldl (fun tbl l => l.enum.foldl scoreStep tbl) t)).Nodup ∧
      tblScore (starts.foldl (fun tbl l => l.enum.foldl scoreStep tbl) t) o
        = tblScore t o + specScore starts o ∧
      (o ∈ keysOf (starts.foldl (fun tbl l => l.enum.foldl scoreStep tbl) t)
        ↔ o ∈ keysOf t ∨ ∃ l ∈ starts, o ∈ l) := by
  intro starts
  induction starts with
  | nil =>
    intro t h
    refine ⟨h, by simp [specScore], by simp⟩
  | cons l rest ih =>
    intro t h
    have hstep : ((l :: rest).foldl (fun tbl l2 => l2.enum.foldl scoreStep tbl) t)
        = rest.foldl (fun tbl l2 => l2.enum.foldl scoreStep tbl) (l.enum.foldl scoreStep t) :=
      List.foldl_cons _ _
    obtain ⟨i1, i2, i3⟩ := inner_fold_spec o l 0 t h
    have i1' : (keysOf (l.enum.foldl scoreStep t)).Nodup := i1
    obtain ⟨j1, j2, j3⟩ := ih (l.enum.foldl scoreStep t) i1'
    refine ⟨by rw [hstep]; exact j1, ?_, ?_⟩
    · rw [hstep, j2]
      have i2' : tblScore (l.enum.foldl scoreStep t) o = tblScore t o + seqScore 1 l o := i2
      rw [i2']
      simp only [specScore, List.map_cons, List.sum_cons]
      omega
    · rw [hstep, j3]
      have i3' : (o ∈ keysOf (l.enum.foldl scoreStep t) ↔ o ∈ keysOf t ∨ o ∈ l) := i3
      rw [i3']
      constructor
      · rintro ((h1 | h1) | h1)
        · exact Or.inl h1
        · exact Or.inr ⟨l, List.mem_cons_self l rest, h1⟩
        · obtain ⟨l2, hl2, ho2⟩ := h1
          exact Or.inr ⟨l2, List.mem_cons_of_mem l hl2, ho2⟩
      · rintro (h1 | h1)
        · exact Or.inl (Or.inl h1)
        · obtain ⟨l2, hl2, ho2⟩ := h1
          rcases List.mem_cons.mp hl2 with h2 | h2
          · subst h2
            exact Or.inl (Or.inr ho2)
          · exact Or.inr ⟨l2, h2, ho2⟩

theorem accScores_spec (starts : List (List Nat)) (o : Nat) :
    (keysOf (accScores starts)).Nodup ∧
    tblScore (accScores starts) o = specScore starts o ∧
    (o ∈ keysOf (accScores starts) ↔ ∃ l ∈ starts, o ∈ l) := by
  obtain ⟨a1, a2, a3⟩ := acc_fold_spec o starts [] (by simp [keysOf])
  unfold accScores
  refine ⟨a1, ?_, ?_⟩
  · rw [a2]
    simp [tblScore]
  · rw [a3]
    simp [keysOf]

theorem maxScan_stay : ∀ (tbl : List (Nat × Nat)) (mk : Option Nat) (mv : Nat),
    (∀ p ∈ tbl, p.2 ≤ mv) → tbl.foldl maxStep (mk, mv) = (mk, mv) := by
  intro tbl
  induction tbl with
  | nil => intro mk mv _; rfl
  | cons q t ih =>
    intro mk mv h
    rw [List.foldl_cons]
    have hstep : maxStep (mk, mv) q = (mk, mv) := by
      unfold maxStep
      rw [if_neg (Nat.not_lt.mpr (h q (List.mem_cons_self q t)))]
    rw [hstep]
    exact ih mk mv (fun p hp => h p (List.mem_cons_of_mem q hp))

theorem maxScan_unique (o v : Nat) :
    ∀ (tbl : List (Nat × Nat)) (mk : Option Nat) (mv : Nat), (keysOf tbl).Nodup →
      (o, v) ∈ tbl → mv < v → (∀ p ∈ tbl, p.1 ≠ o → p.2 < v) →
      tbl.foldl maxStep (mk, mv) = (some o, v) := by
  intro tbl
  induction tbl with
  | nil => intro mk mv _ hmem _ _; cases hmem
  | cons q t ih =>
    intro mk mv hnd hmem hlt hall
    have hnd' : q.1 ∉ keysOf t ∧ (keysOf t).Nodup := List.nodup_cons.mp hnd
    rw [List.foldl_cons]
    by_cases hq : q.1 = o
    · have hqv : q = (o, v) := by
        rcases List.mem_cons.mp hmem with h1 | h1
        · exact h1.symm
        · have hok : o ∈ keysOf t := by
            have := List.mem_map_of_mem Prod.fst h1
            exact this
          exact absurd hok (hq ▸ hnd'.1)
      have hstep : maxStep (mk, mv) q = (some o, v) := by
        rw [hqv]
        unfold maxStep
        rw [if_pos hlt]
      rw [hstep]
      apply maxScan_stay
      intro p hp
      have hpne : p.1 ≠ o := by
        intro he
        have hpk : p.1 ∈ keysOf t := List.mem_map_of_mem Prod.fst hp
        rw [he] at hpk
        exact (hq ▸ hnd'.1) hpk
      have := hall p (List.mem_cons_of_mem q hp) hpne
      omega
    · have hmem' : (o, v) ∈ t := by
        rcases List.mem_cons.mp hmem with h1 | h1
        · exact absurd (congrArg Prod.fst h1).symm hq
        · exact h1
      have hqlt : q.2 < v := hall q (List.mem_cons_self q t) hq
      have hstate : ∃ mk2 mv2, maxStep (mk, mv) q = (mk2, mv2) ∧ mv2 < v := by
        unfold maxStep
        by_cases hc : (mk, mv).2 < q.2
        · exact ⟨some q.1, q.2, by rw [if_pos hc], hqlt⟩
        · exact ⟨mk, mv, by rw [if_neg hc], hlt⟩
      obtain ⟨mk2, mv2, hs, hlt2⟩ := hstate
      rw [hs]
      exact ih mk2 mv2 hnd'.2 hmem' hlt2
        (fun p hp hne => hall p (List.mem_cons_of_mem q hp) hne)

theorem seqScore_head_ge (hd : Nat) (t : List Nat) : 8 ≤ seqScore 1 (hd :: t) hd := by
  simp only [seqScore, if_pos rfl]
  show 8 ≤ weight 1 + seqScore 2 t hd
  rw [show weight 1 = 8 from rfl]
  omega

theorem specScore_ge_seq (starts : List (List Nat)) (l : List Nat) (o : Nat)
    (hl : l ∈ starts) : seqScore 1 l o ≤ specScore starts o := by
  unfold specScore
  exact List.single_le_sum (fun x _ => Nat.zero_le x) _ (List.mem_map_of_mem _ hl)

/-- Claim C3: the group-start resolver weights each hit by its rank
(1 → 8, 2 → 4, 3 → 2, 4 → 1, ≥5 → 0), accumulates the weights per
offset over all sequences (`specScore`), returns any offset whose
accumulated score is strictly greater than every other occurring
offset's, and fails with `NoGroupStart` when every hit list is empty. -/
theorem find_group_start_spec :
    (∀ starts : List (List Nat), (∀ l ∈ starts, l = []) →
      find_group_start starts = Except.error OrfTrimError.NoGroupStart) ∧
    (∀ (starts : List (List Nat)) (o : Nat), (∃ l ∈ starts, o ∈ l) →
      (∀ k, (∃ l ∈ starts, k ∈ l) → k ≠ o → specScore starts k < specScore starts o) →
      find_group_start starts = Except.ok o) := by
  constructor
  · intro starts h
    have hacc : accScores starts = [] := by
      unfold accScores
      have key : ∀ ls : List (List Nat), (∀ l ∈ ls, l = []) →
          ls.foldl (fun tbl l => l.enum.foldl scoreStep tbl) [] = [] := by
        intro ls
        induction ls with
        | nil => intro _; rfl
        | cons l rest ih =>
          intro hh
          rw [List.foldl_cons, hh l (List.mem_cons_self l rest)]
          exact ih (fun x hx => hh x (List.mem_cons_of_mem l hx))
      exact key starts h
    unfold find_group_start
    rw [hacc]
    rfl
  · intro starts o ho hmax
    obtain ⟨nd, hsc, hmem⟩ := accScores_spec starts o
    have hkey : o ∈ keysOf (accScores starts) := hmem.mpr ho
    have hin : (o, tblScore (accScores starts) o) ∈ accScores starts :=
      mem_of_key (accScores starts) o nd hkey
    rw [hsc] at hin
    have hpos : 0 < specScore starts o := by
      obtain ⟨l0, hl0, hol0⟩ := ho
      have hne : l0 ≠ [] := fun he => List.not_mem_nil o (he ▸ hol0)
      obtain ⟨hd, tl, rfl⟩ := List.exists_cons_of_ne_nil hne
      by_cases hho : hd = o
      · subst hho
        have h8 := seqScore_head_ge hd tl
        have hle := specScore_ge_seq starts (hd :: tl) hd hl0
        omega
      · have hhd : ∃ l ∈ starts, hd ∈ l := ⟨hd :: tl, hl0, List.mem_cons_self hd tl⟩
        have hlt := hmax hd hhd hho
        omega
    have hall : ∀ p ∈ accScores starts, p.1 ≠ o → p.2 < specScore starts o := by
      intro p hp hne
      obtain ⟨_, hsc2, hmem2⟩ := accScores_spec starts p.1
      have hpk : p.1 ∈ keysOf (accScores starts) := List.mem_map_of_mem Prod.fst hp
      have hex : ∃ l ∈ starts, p.1 ∈ l := hmem2.mp hpk
      have hlt := hmax p.1 hex hne
      have hps := tblScore_mem_eq (accScores starts) p nd hp
      omega
    unfold find_group_start maxScan
    rw [maxScan_unique o (specScore starts o) (accScores starts) none 0 nd hin hpos hall]

theorem find_group_start_spec_witness :
    find_group_start [[5]] = Except.ok 5 ∧ find_group_start [[]] =
      Except.error OrfTrimError.NoGroupStart :=
  ⟨find_group_start_spec.2 [[5]] 5 ⟨[5], by decide, by decide⟩
    (by
      intro k hk hne
      obtain ⟨l, hl, hkl⟩ := hk
      rw [List.mem_singleton] at hl
      subst hl
      rw [List.mem_singleton] at hkl
      exact absurd hkl hne),
   find_group_start_spec.1 [[]] (by
      intro l hl
      rwa [List.mem_singleton] at hl)⟩

/-! ### Pipeline lemmas (claims C8 and C9) -/

theorem find_starts_error_val (f : Fasta) (n : Nat) (e : OrfTrimError)
    (h : find_starts f n = Except.error e) : e = OrfTrimError.NoStartCodons := by
  unfold find_starts at h
  by_cases he : (startsTable f n).isEmpty
  · rw [if_pos he] at h
    exact (Except.error.inj h).symm
  · rw [if_neg he] at h
    exact absurd h (by simp)

theorem find_starts_ok_pos (f : Fasta) (n : Nat) (starts : List (List Nat))
    (h : find_starts f n = Except.ok starts) : n ≠ 0 := by
  unfold find_starts at h
  by_cases he : (startsTable f n).isEmpty
  · rw [if_pos he] at h
    exact absurd h (by simp)
  · intro hn
    apply he
    rw [List.isEmpty_iff, ← List.length_eq_zero, startsTable_length]
    exact hn

theorem find_group_start_error_val (starts : List (List Nat)) (e : OrfTrimError)
    (h : find_group_start starts = Except.error e) : e = OrfTrimError.NoGroupStart := by
  unfold find_group_start at h
  cases hm : (maxScan (accScores starts)).1 with
  | none =>
    rw [hm] at h
    exact (Except.error.inj h).symm
  | some locus =>
    rw [hm] at h
    exact absurd h (by simp)

theorem find_first_stops_error_val (f : Fasta) (gs : Nat) (e : OrfTrimError)
    (h : find_first_stops f gs = Except.error e) : e = OrfTrimError.NoStopCodons (gs + 1) := by
  unfold find_first_stops at h
  by_cases he : (stopsList f gs).isEmpty
  · rw [if_pos he] at h
    exact (Except.error.inj h).symm
  · rw [if_neg he] at h
    exact absurd h (by simp)

theorem find_first_stops_ok_val (f : Fasta) (gs : Nat) (stops : List Nat)
    (h : find_first_stops f gs = Except.ok stops) : stops = stopsList f gs ∧ stops ≠ [] := by
  unfold find_first_stops at h
  by_cases he : (stopsList f gs).isEmpty
  · rw [if_pos he] at h
    exact absurd h (by simp)
  · rw [if_neg he] at h
    have hv := (Except.ok.inj h).symm
    refine ⟨hv, ?_⟩
    rw [hv]
    intro hnil
    exact he (by rw [hnil]; rfl)

theorem bumpCount_ne_nil (c : List (Nat × Nat)) (n : Nat) : bumpCount c n ≠ [] := by
  unfold bumpCount
  by_cases ha : c.any (fun p => p.1 == n) = true
  · rw [if_pos ha]
    intro hnil
    cases c with
    | nil => simp at ha
    | cons q t => simp at hnil
  · rw [if_neg ha]
    intro hnil
    simp at hnil

theorem countsTable_ne_nil (l : List Nat) (h : l ≠ []) : countsTable l ≠ [] := by
  have key : ∀ (t : List Nat) (c : List (Nat × Nat)), c ≠ [] → t.foldl bumpCount c ≠ [] := by
    intro t
    induction t with
    | nil => intro c hc; exact hc
    | cons n t2 ih =>
      intro c hc
      rw [List.foldl_cons]
      exact ih (bumpCount c n) (bumpCount_ne_nil c n)
  cases l with
  | nil => exact absurd rfl h
  | cons n t =>
    unfold countsTable
    rw [List.foldl_cons]
    exact key t (bumpCount [] n) (bumpCount_ne_nil [] n)

theorem modeScan_some (c : List (Nat × Nat)) (h : c ≠ []) : ∃ p, modeScan c = some p := by
  have key : ∀ (t : List (Nat × Nat)) (q : Nat × Nat),
      ∃ p, t.foldl (fun acc p2 => match acc with
        | none => some p2
        | some r => if r.2 ≤ p2.2 then some p2 else some r) (some q) = some p := by
    intro t
    induction t with
    | nil => intro q; exact ⟨q, rfl⟩
    | cons p2 t2 ih =>
      intro q
      rw [List.foldl_cons]
      by_cases hc : q.2 ≤ p2.2
      · obtain ⟨p, hp⟩ := ih p2
        refine ⟨p, ?_⟩
        rw [← hp]
        congr 1
        show (if q.2 ≤ p2.2 then some p2 else some q) = some p2
        rw [if_pos hc]
      · obtain ⟨p, hp⟩ := ih q
        refine ⟨p, ?_⟩
        rw [← hp]
        congr 1
        show (if q.2 ≤ p2.2 then some p2 else some q) = some q
        rw [if_neg hc]
  cases c with
  | nil => exact absurd rfl h
  | cons q t =>
    unfold modeScan
    rw [List.foldl_cons]
    exact key t q

theorem mode_ok_of_ne_nil (l : List Nat) (h : l ≠ []) :
    ∃ m, mode_vec_usize l = Except.ok m := by
  have hc := countsTable_ne_nil l h
  obtain ⟨p, hp⟩ := modeScan_some (countsTable l) hc
  refine ⟨p.1, ?_⟩
  unfold mode_vec_usize
  rw [if_neg (by simpa [List.isEmpty_iff] using hc), hp]

theorem perform_trimming_ok (f : Fasta) (start stop : Nat) (out : String)
    (h : f.data ≠ []) : ∃ g, perform_trimming f start stop out = Except.ok g := by
  unfold perform_trimming
  have hlen : ((f.data.map (trimEntry start stop)).length == 0) = false := by
    simp [List.length_map]
    intro hd
    exact h hd
  rw [hlen]
  exact ⟨_, rfl⟩

/-- Claim C8: `trim_to_orf` never returns `TrimFailed`: every error it
surfaces is `NoStartCodons`, `NoGroupStart` or `NoStopCodons`; the mode
step receives a non-empty list and the trimming step emits one record
per input record, so their failure checks cannot trigger. -/
theorem trim_to_orf_error_kinds :
    ∀ (f : Fasta) (out : String) (e : OrfTrimError),
      trim_to_orf f out = Except.error e →
      e = OrfTrimError.NoStartCodons ∨ e = OrfTrimError.NoGroupStart ∨
        ∃ k, e = OrfTrimError.NoStopCodons k := by
  intro f out e h
  unfold trim_to_orf at h
  cases hs : find_starts f f.data.length with
  | error e1 =>
    rw [hs] at h
    have h2 : Except.error e1 = Except.error e := h
    have h1 := find_starts_error_val f f.data.length e1 hs
    exact Or.inl (by rw [← Except.error.inj h2]; exact h1)
  | ok starts =>
    rw [hs] at h
    have h3 : (match find_group_start starts with
      | Except.error e => Except.error e
      | Except.ok group_start =>
        match find_first_stops f group_start with
        | Except.error e => Except.error e
        | Except.ok first_stops =>
          match mode_vec_usize first_stops with
          | Except.error _ => Except.error OrfTrimError.TrimFailed
          | Except.ok group_stop => perform_trimming f group_start group_stop out)
        = Except.error e := h
    cases hg : find_group_start starts with
    | error e1 =>
      rw [hg] at h3
      have h2 : Except.error e1 = Except.error e := h3
      have h1 := find_group_start_error_val starts e1 hg
      exact Or.inr (Or.inl (by rw [← Except.error.inj h2]; exact h1))
    | ok gs =>
      rw [hg] at h3
      have h4 : (match find_first_stops f gs with
        | Except.error e => Except.error e
        | Except.ok first_stops =>
          match mode_vec_usize first_stops with
          | Except.error _ => Except.error OrfTrimError.TrimFailed
          | Except.ok group_stop => perform_trimming f gs group_stop out)
          = Except.error e := h3
      cases hf : find_first_stops f gs with
      | error e1 =>
        rw [hf] at h4
        have h2 : Except.error e1 = Except.error e := h4
        have h1 := find_first_stops_error_val f gs e1 hf
        refine Or.inr (Or.inr ⟨gs + 1, ?_⟩)
        rw [← Except.error.inj h2]
        exact h1
      | ok stops =>
        rw [hf] at h4
        have h5 : (match mode_vec_usize stops with
          | Except.error _ => Except.error OrfTrimError.TrimFailed
          | Except.ok group_stop => perform_trimming f gs group_stop out)
            = Except.error e := h4
        cases hm : mode_vec_usize stops with
        | error s =>
          obtain ⟨_, hne⟩ := find_first_stops_ok_val f gs stops hf
          obtain ⟨m, hmo⟩ := mode_ok_of_ne_nil stops hne
          rw [hmo] at hm
          exact absurd hm (by simp)
        | ok gstop =>
          rw [hm] at h5
          have h6 : perform_trimming f gs gstop out = Except.error e := h5
          have hdne : f.data ≠ [] := by
            have hn := find_starts_ok_pos f f.data.length starts hs
            intro hd
            rw [hd] at hn
            exact hn rfl
          obtain ⟨g, hgk⟩ := perform_trimming_ok f gs gstop out hdne
          rw [hgk] at h6
          exact absurd h6 (by simp)

theorem trim_to_orf_error_kinds_witness :
    trim_to_orf ⟨"e", []⟩ "o" = Except.error OrfTrimError.NoStartCodons ∧
    (OrfTrimError.NoStartCodons = OrfTrimError.NoStartCodons ∨
      OrfTrimError.NoStartCodons = OrfTrimError.NoGroupStart ∨
      ∃ k, OrfTrimError.NoStartCodons = OrfTrimError.NoStopCodons k) :=
  ⟨by decide, trim_to_orf_error_kinds ⟨"e", []⟩ "o" OrfTrimError.NoStartCodons (by decide)⟩

theorem stopsList_ge (f : Fasta) (gs : Nat) : ∀ x ∈ stopsList f gs, gs ≤ x := by
  intro x hx
  unfold stopsList at hx
  obtain ⟨e, _, hfe⟩ := List.mem_filterMap.mp hx
  by_cases hl : gs < e.sequence.length
  · rw [if_pos hl] at hfe
    unfold first_stop_in_seq at hfe
    cases hh : first_stop_hit gs e.sequence with
    | none => rw [hh] at hfe; cases hfe
    | some p =>
      rw [hh] at hfe
      simp only [Option.map_some'] at hfe
      have := Option.some.inj hfe
      omega
  · rw [if_neg hl] at hfe
    cases hfe

theorem modeScan_fold_mem :
    ∀ (c : List (Nat × Nat)) (acc : Option (Nat × Nat)) (p : Nat × Nat),
      (c.foldl (fun acc2 p2 => match acc2 with
        | none => some p2
        | some q => if q.2 ≤ p2.2 then some p2 else some q) acc) = some p →
      acc = some p ∨ p ∈ c := by
  intro c
  induction c with
  | nil => intro acc p h; exact Or.inl h
  | cons q t ih =>
    intro acc p h
    rw [List.foldl_cons] at h
    rcases ih _ p h with h1 | h1
    · cases acc with
      | none =>
        have h2 : some q = some p := h1
        exact Or.inr (by rw [← Option.some.inj h2]; exact List.mem_cons_self q t)
      | some r =>
        have h2 : (if r.2 ≤ q.2 then some q else some r) = some p := h1
        by_cases hc : r.2 ≤ q.2
        · rw [if_pos hc] at h2
          exact Or.inr (by rw [← Option.some.inj h2]; exact List.mem_cons_self q t)
        · rw [if_neg hc] at h2
          exact Or.inl h2
    · exact Or.inr (List.mem_cons_of_mem q h1)

theorem bumpCount_mem (c : List (Nat × Nat)) (n o : Nat) :
    o ∈ keysOf (bumpCount c n) → o ∈ keysOf c ∨ o = n := by
  unfold bumpCount
  by_cases ha : c.any (fun p => p.1 == n) = true
  · rw [if_pos ha]
    intro ho
    left
    unfold keysOf at ho ⊢
    rw [List.map_map] at ho
    have : (Prod.fst ∘ fun p : Nat × Nat => if p.1 == n then (p.1, p.2 + 1) else p)
        = Prod.fst := by
      funext p
      by_cases hp : (p.1 == n) = true
      · simp [Function.comp, hp]
      · simp [Function.comp, hp]
    rwa [this] at ho
  · rw [if_neg ha]
    intro ho
    unfold keysOf at ho
    rw [List.map_append, List.mem_append] at ho
    rcases ho with h1 | h1
    · exact Or.inl h1
    · right
      simpa using h1

theorem countsTable_keys_sub :
    ∀ (l : List Nat) (c : List (Nat × Nat)) (p : Nat × Nat),
      p ∈ l.foldl bumpCount c → p.1 ∈ keysOf c ∨ p.1 ∈ l := by
  intro l
  induction l with
  | nil => intro c p h; exact Or.inl (List.mem_map_of_mem Prod.fst h)
  | cons n t ih =>
    intro c p h
    rw [List.foldl_cons] at h
    rcases ih (bumpCount c n) p h with h1 | h1
    · rcases bumpCount_mem c n p.1 h1 with h2 | h2
      · exact Or.inl h2
      · exact Or.inr (by rw [h2]; exact List.mem_cons_self n t)
    · exact Or.inr (List.mem_cons_of_mem n h1)

theorem mode_ok_mem (l : List Nat) (m : Nat) (h : mode_vec_usize l = Except.ok m) :
    m ∈ l := by
  unfold mode_vec_usize at h
  by_cases he : (countsTable l).isEmpty
  · rw [if_pos he] at h
    exact absurd h (by simp)
  · rw [if_neg he] at h
    cases hm : modeScan (countsTable l) with
    | none =>
      rw [hm] at h
      have h2 : (Except.error "Failed to calculate mode: no mode found" : Except String Nat)
          = Except.ok m := h
      exact absurd h2 (by simp)
    | some p =>
      rw [hm] at h
      have h2 : Except.ok p.1 = Except.ok m := h
      have hpm := Except.ok.inj h2
      have hpc : p ∈ countsTable l := by
        unfold modeScan at hm
        rcases modeScan_fold_mem (countsTable l) none p hm with h3 | h3
        · cases h3
        · exact h3
      have hsub := countsTable_keys_sub l [] p (by unfold countsTable at hpc; exact hpc)
      rcases hsub with h3 | h3
      · simp [keysOf] at h3
      · rwa [← hpm]

/-- Claim C9: whenever the stop scanner and the mode step both succeed
(the path `trim_to_orf` takes to its consensus stop), the consensus
stop offset is at least the consensus start offset — every recorded
stop is the start offset plus a non-negative index and the mode of a
non-empty list is one of its elements — so the window `[start, stop+3)`
is never empty. -/
theorem trim_stop_ge_start :
    ∀ (f : Fasta) (gs : Nat) (stops : List Nat) (m : Nat),
      find_first_stops f gs = Except.ok stops → mode_vec_usize stops = Except.ok m →
      gs ≤ m ∧ gs < m + 3 := by
  intro f gs stops m hf hm
  obtain ⟨hv, _⟩ := find_first_stops_ok_val f gs stops hf
  have hmem := mode_ok_mem stops m hm
  rw [hv] at hmem
  have := stopsList_ge f gs m hmem
  omega

theorem trim_stop_ge_start_witness :
    find_first_stops ⟨"w", [⟨[], [84, 65, 71], 0⟩]⟩ 0 = Except.ok [0] ∧
    mode_vec_usize [0] = Except.ok 0 ∧ ((0 : Nat) ≤ 0 ∧ (0 : Nat) < 0 + 3) :=
  ⟨by decide, by decide,
   trim_stop_ge_start ⟨"w", [⟨[], [84, 65, 71], 0⟩]⟩ 0 [0] 0 (by decide) (by decide)⟩

/-! ### Parser lemmas (claim C10) -/

theorem parseFasta_inv :
    ∀ (lines : List (List Nat)) (fa : Fasta) (ldef lseq : List Nat) (en : Nat),
      en = fa.data.length →
      (∀ e ∈ fa.data, e.sequence ≠ []) →
      fa.data.map (fun e => e.entry_number) = List.range fa.data.length →
      (∀ e ∈ (parseFasta fa ldef lseq en lines).data, e.sequence ≠ []) ∧
      (parseFasta fa ldef lseq en lines).data.map (fun e => e.entry_number)
        = List.range (parseFasta fa ldef lseq en lines).data.length := by
  intro lines
  induction lines with
  | nil =>
    intro fa ldef lseq en hen hseq hnum
    unfold parseFasta
    by_cases hl : lseq.isEmpty
    · rw [if_pos hl]
      exact ⟨hseq, hnum⟩
    · rw [if_neg hl]
      constructor
      · intro e he
        rcases List.mem_append.mp he with h1 | h1
        · exact hseq e h1
        · rw [List.mem_singleton] at h1
          subst h1
          show lseq ≠ []
          intro hn
          exact hl (by rw [hn]; rfl)
      · rw [List.map_append, List.length_append]
        simp only [List.map_cons, List.map_nil, List.length_cons, List.length_nil]
        rw [hnum, hen, ← List.range_succ]
  | cons line rest ih =>
    intro fa ldef lseq en hen hseq hnum
    unfold parseFasta
    by_cases hd : line.head? = some 62
    · rw [if_pos hd]
      by_cases hl : lseq.isEmpty
      · rw [if_pos hl]
        exact ih fa (line.drop 1) [] en hen hseq hnum
      · rw [if_neg hl]
        apply ih
        · simp [hen]
        · intro e he
          rcases List.mem_append.mp he with h1 | h1
          · exact hseq e h1
          · rw [List.mem_singleton] at h1
            subst h1
            show lseq ≠ []
            intro hn
            exact hl (by rw [hn]; rfl)
        · rw [List.map_append, List.length_append]
          simp only [List.map_cons, List.map_nil, List.length_cons, List.length_nil]
          rw [hnum, hen, ← List.range_succ]
    · rw [if_neg hd]
      exact ih fa ldef (lseq ++ line) en hen hseq hnum

/-- Claim C10: the FASTA parser never emits a record with an empty
sequence (a defline with no following sequence lines — including a
trailing defline at end of file — produces no record), and in the
returned collection every record's ordinal index equals its 0-based
position, contiguous from 0. -/
theorem open_fasta_records_invariant :
    ∀ (name : String) (lines : List (List Nat)),
      (∀ e ∈ (open_fasta name lines).data, e.sequence ≠ []) ∧
      (open_fasta name lines).data.map (fun e => e.entry_number)
        = List.range (open_fasta name lines).data.length := by
  intro name lines
  exact parseFasta_inv lines ⟨name, []⟩ [] [] 0 rfl (by intro e he; cases he) rfl

theorem open_fasta_records_invariant_witness :
    (open_fasta "f" [[62, 97], [65, 84], [62, 98]]).data = [⟨[97], [65, 84], 0⟩] ∧
    ([65, 84] : List Nat) ≠ [] ∧
    (open_fasta "f" [[62, 97], [65, 84], [62, 98]]).data.map (fun e => e.entry_number)
      = List.range (open_fasta "f" [[62, 97], [65, 84], [62, 98]]).data.length :=
  ⟨by decide,
   (open_fasta_records_invariant "f" [[62, 97], [65, 84], [62, 98]]).1
     ⟨[97], [65, 84], 0⟩ (by decide),
   (open_fasta_records_invariant "f" [[62, 97], [65, 84], [62, 98]]).2⟩
